import Mathlib

/-!
Verification of the Leibniz π-approximation core of the repository
(`src/1-extending-ruby/leibniz/ext/leibniz/leibniz.c`): a scalar evaluator
`normal` and a 4-lane vectorized evaluator `simd`.

The embedding is over exact rational arithmetic: every C `double` value
becomes a `ℚ`, and every arithmetic operation the C code performs is
mirrored in the same order and grouping, so the accumulation structure is
preserved while rounding is idealized.  The 32-bit `unsigned int` loop
counters and the `unsigned int` evaluation of `2 * i + 1` in the scalar
path are modelled exactly, including reduction modulo `2^32`.
-/

namespace Leibniz

/-- Number of values of the C `unsigned int` type (32 bits), which is the
type of the loop counter `i` in both evaluators. -/
def uintSize : ℕ := 2 ^ 32

/-- The denominator the scalar loop computes for loop index `i`: in C the
expression `2 * i + 1` with `i : unsigned int` is evaluated in
`unsigned int` arithmetic, hence reduced modulo `2^32`, before being
converted to `double` for the division. -/
def uintDenom (i : ℕ) : ℕ := (2 * i + 1) % uintSize

/-- One iteration of the loop body of `normal`.  The state is the pair
`(pi, signal)` of C locals; the body first flips `signal` and then adds
`signal / (2*i+1)` (denominator computed in 32-bit arithmetic) to `pi`. -/
def normalStep (st : ℚ × ℚ) (i : ℕ) : ℚ × ℚ :=
  let signal := -st.2
  (st.1 + signal / (uintDenom i : ℚ), signal)

/-- The scalar evaluator `normal` of `leibniz.c`.  It starts from
`pi = 0.0`, `signal = -1.0`, runs the loop body for `i = 0, 1, …, n-1`
and returns `pi * 4.0`.  This models the C function for `n < 2^32`, where
the 32-bit counter reaches `n` after exactly `n` iterations; for
`n ≥ 2^32` the C loop never terminates (see `normalCounter` and
`normalTerminates`). -/
def normal (n : ℕ) : ℚ :=
  ((List.range n).foldl normalStep (0, -1)).1 * 4

/-- Value of the 32-bit counter `i` of `normal` when the loop guard is
tested for the `k`-th time: `i` starts at 0 and is incremented by 1 each
iteration, wrapping modulo `2^32`. -/
def normalCounter (k : ℕ) : ℕ := k % uintSize

/-- Value of the 32-bit counter `i` of `simd` when the loop guard is
tested for the `k`-th time: `i` starts at 0 and is incremented by 4 each
iteration, wrapping modulo `2^32`. -/
def simdCounter (k : ℕ) : ℕ := (4 * k) % uintSize

/-- The loop `for(i = 0; i < n; ++i)` of `normal` terminates exactly when
the guard `i < n` eventually fails, i.e. when some counter value reaches
`n`. -/
def normalTerminates (n : ℕ) : Prop := ∃ k, n ≤ normalCounter k

/-- The loop `for(i = 0; i < n; i += 4)` of `simd` terminates exactly when
the guard `i < n` eventually fails, i.e. when some counter value reaches
`n`. -/
def simdTerminates (n : ℕ) : Prop := ∃ k, n ≤ simdCounter k

/-- Model of a 256-bit vector of four doubles (`__m256d`); field `ek` is
element `k`, i.e. the value `v[k]` in C. -/
structure M256d where
  e0 : ℚ
  e1 : ℚ
  e2 : ℚ
  e3 : ℚ
deriving DecidableEq

/-- `_mm256_set_pd(a, b, c, d)` places its last argument in element 0 and
its first argument in element 3. -/
def mm256_set_pd (a b c d : ℚ) : M256d := ⟨d, c, b, a⟩

/-- `_mm256_set1_pd(a)` broadcasts `a` to all four elements. -/
def mm256_set1_pd (a : ℚ) : M256d := ⟨a, a, a, a⟩

/-- `_mm256_setzero_pd()`. -/
def mm256_setzero_pd : M256d := ⟨0, 0, 0, 0⟩

/-- `_mm256_add_pd`: lane-wise addition. -/
def mm256_add_pd (x y : M256d) : M256d :=
  ⟨x.e0 + y.e0, x.e1 + y.e1, x.e2 + y.e2, x.e3 + y.e3⟩

/-- `_mm256_div_pd`: lane-wise division. -/
def mm256_div_pd (x y : M256d) : M256d :=
  ⟨x.e0 / y.e0, x.e1 / y.e1, x.e2 / y.e2, x.e3 / y.e3⟩

/-- `_mm256_fmadd_pd(a, b, c)`: lane-wise `a*b + c` (the fused operation is
exact in the rational model, as is a fused rounding-free multiply-add). -/
def mm256_fmadd_pd (a b c : M256d) : M256d :=
  ⟨a.e0 * b.e0 + c.e0, a.e1 * b.e1 + c.e1, a.e2 * b.e2 + c.e2,
    a.e3 * b.e3 + c.e3⟩

/-- The vector locals of `simd` that survive across loop iterations
(`sum_vector` is overwritten at the start of every iteration, so it is a
temporary of the body; the constant vectors are bound below). -/
structure SimdState where
  signal_vector : M256d
  result_vector : M256d
  idx_vector : M256d
deriving DecidableEq

/-- `one_vector = _mm256_set1_pd(1.0)`. -/
def one_vector : M256d := mm256_set1_pd 1

/-- `two_vector = _mm256_set1_pd(2.0)`. -/
def two_vector : M256d := mm256_set1_pd 2

/-- `four_vector = _mm256_set1_pd(4.0)`. -/
def four_vector : M256d := mm256_set1_pd 4

/-- One iteration of the loop body of `simd`:
`sum_vector = 2*idx + 1` (fmadd), `sum_vector = signal / sum_vector`,
`result_vector += sum_vector`, `idx_vector += 4`.  `signal_vector` is
read but never written. -/
def simdBody (st : SimdState) : SimdState :=
  let sum_vector := mm256_fmadd_pd two_vector st.idx_vector one_vector
  let sum_vector := mm256_div_pd st.signal_vector sum_vector
  { signal_vector := st.signal_vector
    result_vector := mm256_add_pd st.result_vector sum_vector
    idx_vector := mm256_add_pd st.idx_vector four_vector }

/-- Initial vector state of `simd`:
`signal_vector = _mm256_set_pd(1.0, -1.0, 1.0, -1.0)`,
`result_vector = _mm256_setzero_pd()`,
`idx_vector = _mm256_set_pd(0.0, 1.0, 2.0, 3.0)`. -/
def simdInit : SimdState :=
  { signal_vector := mm256_set_pd 1 (-1) 1 (-1)
    result_vector := mm256_setzero_pd
    idx_vector := mm256_set_pd 0 1 2 3 }

/-- Vector state of `simd` after `s` executions of the loop body. -/
def simdStateAfter (s : ℕ) : SimdState := simdBody^[s] simdInit

/-- Number of iterations of the loop `for(i = 0; i < n; i += 4)`: it runs
for `i = 0, 4, 8, …` while `i < n`, i.e. `⌈n/4⌉` times.  This models the
C loop for `n ≤ 2^32 - 4`; beyond that the 32-bit counter wraps before
reaching `n` and the C loop never terminates (see `simdCounter` and
`simdTerminates`). -/
def simdSteps (n : ℕ) : ℕ := (n + 3) / 4

/-- The vectorized evaluator `simd` of `leibniz.c`: after the loop it sums
the four elements of `result_vector` left to right into `pi` (initially
`0.0`) and returns `pi * 4.0`. -/
def simd (n : ℕ) : ℚ :=
  let st := simdStateAfter (simdSteps n)
  (0 + (st.result_vector.e0 + st.result_vector.e1 + st.result_vector.e2 +
    st.result_vector.e3)) * 4

/-- The mathematical Leibniz partial sum `Σ_{i<n} (-1)^i / (2i+1)`, over
`ℚ`, with exact (unwrapped) denominators. -/
def leibnizSum (n : ℕ) : ℚ :=
  ∑ i ∈ Finset.range n, (-1 : ℚ) ^ i / (2 * (i : ℚ) + 1)

/-! ### Structure lemmas for the scalar evaluator -/

lemma normal_foldl (n : ℕ) :
    (List.range n).foldl normalStep (0, -1) =
      (∑ i ∈ Finset.range n, (-1 : ℚ) ^ i / (uintDenom i : ℚ),
        (-1 : ℚ) ^ (n + 1)) := by
  induction n with
  | zero => simp
  | succ n ih =>
      have hsign : -((-1 : ℚ) ^ (n + 1)) = (-1 : ℚ) ^ n := by
        rw [pow_succ]; ring
      rw [List.range_succ, List.foldl_append, ih]
      simp only [List.foldl_cons, List.foldl_nil, normalStep, Finset.sum_range_succ,
        Prod.mk.injEq, hsign]
      refine ⟨trivial, ?_⟩
      rw [pow_succ, pow_succ]; ring

lemma uintDenom_exact (i : ℕ) (h : i < 2 ^ 31) : uintDenom i = 2 * i + 1 := by
  unfold uintDenom uintSize
  have h31 : (2 : ℕ) ^ 31 = 2147483648 := by norm_num
  have h32 : (2 : ℕ) ^ 32 = 4294967296 := by norm_num
  apply Nat.mod_eq_of_lt
  omega

lemma normal_eq_sum (n : ℕ) (h : n ≤ 2 ^ 31) : normal n = 4 * leibnizSum n := by
  unfold normal leibnizSum
  rw [normal_foldl]
  show (∑ i ∈ Finset.range n, (-1 : ℚ) ^ i / (uintDenom i : ℚ)) * 4 = _
  rw [mul_comm]
  congr 1
  apply Finset.sum_congr rfl
  intro i hi
  rw [Finset.mem_range] at hi
  rw [uintDenom_exact i (lt_of_lt_of_le hi h)]
  push_cast
  rfl

/-! ### Structure lemmas for the vectorized evaluator -/

lemma simdStateAfter_succ (s : ℕ) :
    simdStateAfter (s + 1) = simdBody (simdStateAfter s) :=
  Function.iterate_succ_apply' simdBody s simdInit

lemma simd_invariant (s : ℕ) :
    simdStateAfter s =
      { signal_vector := mm256_set_pd 1 (-1) 1 (-1)
        result_vector :=
          ⟨-∑ j ∈ Finset.range s, (1 : ℚ) / (8 * (j : ℚ) + 7),
            ∑ j ∈ Finset.range s, (1 : ℚ) / (8 * (j : ℚ) + 5),
            -∑ j ∈ Finset.range s, (1 : ℚ) / (8 * (j : ℚ) + 3),
            ∑ j ∈ Finset.range s, (1 : ℚ) / (8 * (j : ℚ) + 1)⟩
        idx_vector :=
          ⟨4 * (s : ℚ) + 3, 4 * (s : ℚ) + 2, 4 * (s : ℚ) + 1, 4 * (s : ℚ)⟩ } := by
  induction s with
  | zero =>
      simp only [simdStateAfter, Function.iterate_zero, id_eq, simdInit, mm256_set_pd,
        mm256_setzero_pd, SimdState.mk.injEq, M256d.mk.injEq]
      norm_num
  | succ s ih =>
      rw [simdStateAfter_succ, ih]
      simp only [simdBody, mm256_fmadd_pd, mm256_div_pd, mm256_add_pd, mm256_set_pd,
        mm256_set1_pd, one_vector, two_vector, four_vector, SimdState.mk.injEq,
        M256d.mk.injEq, Finset.sum_range_succ]
      push_cast
      refine ⟨trivial, ⟨?_, ?_, ?_, ?_⟩, ?_, ?_, ?_, ?_⟩ <;> ring

lemma leibnizSum_four_succ (s : ℕ) :
    leibnizSum (4 * (s + 1)) =
      leibnizSum (4 * s) + 1 / (8 * (s : ℚ) + 1) - 1 / (8 * (s : ℚ) + 3) +
        1 / (8 * (s : ℚ) + 5) - 1 / (8 * (s : ℚ) + 7) := by
  unfold leibnizSum
  rw [show 4 * (s + 1) = 4 * s + 1 + 1 + 1 + 1 by ring]
  rw [Finset.sum_range_succ, Finset.sum_range_succ, Finset.sum_range_succ,
    Finset.sum_range_succ]
  have h0 : (-1 : ℚ) ^ (4 * s) = 1 := by
    rw [pow_mul]; norm_num
  have h1 : (-1 : ℚ) ^ (4 * s + 1) = -1 := by rw [pow_succ, h0]; ring
  have h2 : (-1 : ℚ) ^ (4 * s + 1 + 1) = 1 := by rw [pow_succ, h1]; ring
  have h3 : (-1 : ℚ) ^ (4 * s + 1 + 1 + 1) = -1 := by rw [pow_succ, h2]; ring
  rw [h0, h1, h2, h3]
  push_cast
  ring

lemma lanes_sum (s : ℕ) :
    (-∑ j ∈ Finset.range s, (1 : ℚ) / (8 * (j : ℚ) + 7)) +
        (∑ j ∈ Finset.range s, (1 : ℚ) / (8 * (j : ℚ) + 5)) +
        (-∑ j ∈ Finset.range s, (1 : ℚ) / (8 * (j : ℚ) + 3)) +
        (∑ j ∈ Finset.range s, (1 : ℚ) / (8 * (j : ℚ) + 1)) =
      leibnizSum (4 * s) := by
  induction s with
  | zero => simp [leibnizSum]
  | succ s ih =>
      rw [leibnizSum_four_succ, ← ih]
      rw [Finset.sum_range_succ, Finset.sum_range_succ, Finset.sum_range_succ,
        Finset.sum_range_succ]
      ring

lemma simd_eq_sum (n : ℕ) : simd n = 4 * leibnizSum (4 * simdSteps n) := by
  unfold simd
  rw [simd_invariant]
  simp only
  rw [← lanes_sum]
  ring

/-! ### Analysis lemmas: position of the partial sums relative to π/4 -/

lemma leibniz_cast (n : ℕ) :
    ((leibnizSum n : ℚ) : ℝ) =
      ∑ i ∈ Finset.range n, (-1 : ℝ) ^ i / (2 * (i : ℝ) + 1) := by
  unfold leibnizSum
  push_cast
  rfl

lemma leib_tendsto :
    Filter.Tendsto
      (fun k => ∑ i ∈ Finset.range k, (-1 : ℝ) ^ i * (2 * (i : ℝ) + 1)⁻¹)
      Filter.atTop (nhds (Real.pi / 4)) := by
  have h := Real.tendsto_sum_pi_div_four
  simp only [div_eq_mul_inv] at h
  exact h

lemma leib_antitone : Antitone (fun i : ℕ => (2 * (i : ℝ) + 1)⁻¹) := by
  intro a b hab
  have ha : (0 : ℝ) < 2 * (a : ℝ) + 1 := by positivity
  have hc : (a : ℝ) ≤ b := Nat.cast_le.mpr hab
  apply inv_anti₀ ha
  linarith

lemma even_le_pi4 (k : ℕ) :
    (∑ i ∈ Finset.range (2 * k), (-1 : ℝ) ^ i / (2 * (i : ℝ) + 1)) ≤
      Real.pi / 4 := by
  have h := Antitone.alternating_series_le_tendsto leib_tendsto leib_antitone k
  simpa [div_eq_mul_inv] using h

lemma pi4_le_odd (k : ℕ) :
    Real.pi / 4 ≤
      ∑ i ∈ Finset.range (2 * k + 1), (-1 : ℝ) ^ i / (2 * (i : ℝ) + 1) := by
  have h := Antitone.tendsto_le_alternating_series leib_tendsto leib_antitone k
  simpa [div_eq_mul_inv] using h

lemma even_pow_neg_one (k : ℕ) : (-1 : ℝ) ^ (2 * k) = 1 := by
  rw [pow_mul]; norm_num

lemma sum_odd_eq (k : ℕ) :
    (∑ i ∈ Finset.range (2 * k + 1), (-1 : ℝ) ^ i / (2 * (i : ℝ) + 1)) =
      (∑ i ∈ Finset.range (2 * k), (-1 : ℝ) ^ i / (2 * (i : ℝ) + 1)) +
        1 / (4 * (k : ℝ) + 1) := by
  rw [Finset.sum_range_succ, even_pow_neg_one]
  push_cast
  ring

lemma even_lt_succ (k : ℕ) :
    (∑ i ∈ Finset.range (2 * k), (-1 : ℝ) ^ i / (2 * (i : ℝ) + 1)) <
      ∑ i ∈ Finset.range (2 * (k + 1)), (-1 : ℝ) ^ i / (2 * (i : ℝ) + 1) := by
  have hodd : (-1 : ℝ) ^ (2 * k + 1) = -1 := by
    rw [pow_succ, even_pow_neg_one]; ring
  rw [show 2 * (k + 1) = 2 * k + 1 + 1 by ring]
  rw [Finset.sum_range_succ, Finset.sum_range_succ, even_pow_neg_one, hodd]
  push_cast
  have h1 : (0 : ℝ) < 2 * (2 * (k : ℝ)) + 1 := by positivity
  have h2 : (1 : ℝ) / (2 * (2 * (k : ℝ) + 1) + 1) < 1 / (2 * (2 * (k : ℝ)) + 1) := by
    apply one_div_lt_one_div_of_lt h1
    linarith
  have h3 : (-1 : ℝ) / (2 * (2 * (k : ℝ) + 1) + 1) =
      -(1 / (2 * (2 * (k : ℝ) + 1) + 1)) := by ring
  linarith [h3]

lemma even_strictMono :
    StrictMono
      (fun k : ℕ => ∑ i ∈ Finset.range (2 * k), (-1 : ℝ) ^ i / (2 * (i : ℝ) + 1)) :=
  strictMono_nat_of_lt_succ even_lt_succ

lemma normal_cast_even (k : ℕ) (h : 2 * k ≤ 2 ^ 31) :
    ((normal (2 * k) : ℚ) : ℝ) =
      4 * ∑ i ∈ Finset.range (2 * k), (-1 : ℝ) ^ i / (2 * (i : ℝ) + 1) := by
  rw [normal_eq_sum _ h]
  push_cast [leibniz_cast]
  ring

lemma err_even (k : ℕ) (h : 2 * k ≤ 2 ^ 31) :
    |((normal (2 * k) : ℚ) : ℝ) - Real.pi| =
      Real.pi -
        4 * ∑ i ∈ Finset.range (2 * k), (-1 : ℝ) ^ i / (2 * (i : ℝ) + 1) := by
  have h4 := even_le_pi4 k
  rw [normal_cast_even k h, abs_sub_comm, abs_of_nonneg (by linarith)]

lemma err_bound_even (k : ℕ) (h : 2 * k ≤ 2 ^ 31) :
    |((normal (2 * k) : ℚ) : ℝ) - Real.pi| ≤ 4 / (4 * (k : ℝ) + 1) := by
  rw [err_even k h]
  have h1 := pi4_le_odd k
  rw [sum_odd_eq] at h1
  have hk : (0 : ℝ) < 4 * (k : ℝ) + 1 := by positivity
  have h2 : (4 : ℝ) / (4 * (k : ℝ) + 1) = 4 * (1 / (4 * (k : ℝ) + 1)) := by ring
  linarith

/-! ### Claims -/

/-- Claim C1: the claim states that for every `n` the scalar evaluator
accumulates `sign / (2*i + 1)` for each `i < n`.  The code evaluates
`2 * i + 1` in 32-bit `unsigned int` arithmetic: at loop index
`i = 2^31` (reached whenever `n ≥ 2^31 + 1`) it computes the denominator
`(2 * 2^31 + 1) mod 2^32 = 1` and divides by `1`, not by
`2 * 2^31 + 1 = 4294967297` as the claimed algorithm requires. -/
theorem claim_C1_denominator_wraps :
    uintDenom (2 ^ 31) = 1 ∧ uintDenom (2 ^ 31) ≠ 2 * 2 ^ 31 + 1 := by
  constructor
  · decide
  · decide

/-- Claim C2, counterexample: for `n = 1` (so `n % 4 = 1 ≠ 0`) the
vectorized evaluator runs one full 4-lane step and returns
`4 * (1 - 1/3 + 1/5 - 1/7)`, not `simd (n - n % 4) = simd 0 = 0`:
it does not drop the remainder terms. -/
theorem claim_C2_counterexample : simd 1 ≠ simd (1 - 1 % 4) := by
  have h0 : (1 : ℕ) - 1 % 4 = 0 := by norm_num
  have h1 : simdSteps 1 = 1 := by norm_num [simdSteps]
  have h2 : simdSteps 0 = 0 := by norm_num [simdSteps]
  have e0 : leibnizSum 0 = 0 := Finset.sum_range_zero _
  have e4 : leibnizSum 4 = 76 / 105 := by
    unfold leibnizSum
    rw [show (4 : ℕ) = 3 + 1 from rfl, Finset.sum_range_succ,
      show (3 : ℕ) = 2 + 1 from rfl, Finset.sum_range_succ,
      show (2 : ℕ) = 1 + 1 from rfl, Finset.sum_range_succ,
      show (1 : ℕ) = 0 + 1 from rfl, Finset.sum_range_succ, Finset.sum_range_zero]
    norm_num
  rw [h0, simd_eq_sum 1, simd_eq_sum 0, h1, h2]
  norm_num [e0, e4]

/-- Claim C2, amended: for every `n` with `n % 4 ≠ 0` the vectorized
evaluator processes the first `n + (4 - n % 4)` terms — it rounds the
term count up to the next multiple of 4 instead of dropping the
remainder — so it returns the same value as on input `n + (4 - n % 4)`. -/
theorem claim_C2_amended (n : ℕ) (h : n % 4 ≠ 0) :
    simd n = simd (n + (4 - n % 4)) := by
  have hsteps : simdSteps n = simdSteps (n + (4 - n % 4)) := by
    unfold simdSteps
    omega
  unfold simd
  rw [hsteps]

/-- Witness for the amended claim C2 at `n = 7`. -/
theorem claim_C2_witness : 7 % 4 ≠ 0 ∧ simd 7 = simd (7 + (4 - 7 % 4)) :=
  ⟨by decide, claim_C2_amended 7 (by decide)⟩

/-- Claim C3: the claim states both evaluators terminate for every `n` in
the range of the numeric type (`size_t`).  Both loop counters are 32-bit:
for `n = 2^32` (representable in `size_t`) every value the counter takes
stays below `n`, the guard `i < n` never fails and neither loop
terminates. -/
theorem claim_C3_nontermination :
    ¬ normalTerminates (2 ^ 32) ∧ ¬ simdTerminates (2 ^ 32) := by
  have h32 : (2 : ℕ) ^ 32 = 4294967296 := by norm_num
  constructor
  · rintro ⟨k, hk⟩
    have hlt : normalCounter k < uintSize := Nat.mod_lt k (by norm_num [uintSize])
    unfold uintSize at hlt
    rw [h32] at hk hlt
    omega
  · rintro ⟨k, hk⟩
    have hlt : simdCounter k < uintSize := Nat.mod_lt (4 * k) (by norm_num [uintSize])
    unfold uintSize at hlt
    rw [h32] at hk hlt
    omega

/-- Claim C4: at every step `s` of the main loop the lane covering block
offset `k` holds running index `4*s + k` — element `e3` covers offset 0
and holds `4*s`, `e2` covers offset 1 and holds `4*s + 1`, `e1` covers
offset 2 and holds `4*s + 2`, `e0` covers offset 3 and holds `4*s + 3` —
and the per-lane signs equal the pattern fixed at initialization, matching
the offset parity (`+1` for even offsets `e3`, `e1`; `-1` for odd offsets
`e2`, `e0`), never recomputed or changed during the loop. -/
theorem claim_C4_lane_invariant (s : ℕ) :
    ((simdStateAfter s).idx_vector.e3 = 4 * (s : ℚ) ∧
        (simdStateAfter s).idx_vector.e2 = 4 * (s : ℚ) + 1 ∧
        (simdStateAfter s).idx_vector.e1 = 4 * (s : ℚ) + 2 ∧
        (simdStateAfter s).idx_vector.e0 = 4 * (s : ℚ) + 3) ∧
      (simdStateAfter s).signal_vector = simdInit.signal_vector ∧
      (simdStateAfter s).signal_vector.e3 = 1 ∧
      (simdStateAfter s).signal_vector.e2 = -1 ∧
      (simdStateAfter s).signal_vector.e1 = 1 ∧
      (simdStateAfter s).signal_vector.e0 = -1 := by
  rw [simd_invariant s]
  simp [simdInit, mm256_set_pd]

/-- Claim C5: for `n` a multiple of 4, the result of the vectorized
evaluator is the horizontal reduction over the state after `n / 4` loop
steps: the four lane accumulators added left-to-right in the fixed order
lane0 + lane1 + lane2 + lane3, then multiplied by 4. -/
theorem claim_C5_horizontal_reduction (n : ℕ) (h : n % 4 = 0) :
    simd n =
      ((((simdStateAfter (n / 4)).result_vector.e0 +
            (simdStateAfter (n / 4)).result_vector.e1) +
          (simdStateAfter (n / 4)).result_vector.e2) +
        (simdStateAfter (n / 4)).result_vector.e3) * 4 := by
  have hsteps : simdSteps n = n / 4 := by
    unfold simdSteps
    omega
  unfold simd
  rw [hsteps]
  simp only [zero_add]

/-- Witness for claim C5 at `n = 8`. -/
theorem claim_C5_witness :
    8 % 4 = 0 ∧
      simd 8 =
        ((((simdStateAfter (8 / 4)).result_vector.e0 +
              (simdStateAfter (8 / 4)).result_vector.e1) +
            (simdStateAfter (8 / 4)).result_vector.e2) +
          (simdStateAfter (8 / 4)).result_vector.e3) * 4 :=
  ⟨by decide, claim_C5_horizontal_reduction 8 (by decide)⟩

/-- Claim C6: for `n = 4000000` the scalar and the vectorized results
differ by less than `10^-6`.  In the exact-arithmetic model of `double`
both evaluators compute `4 * Σ_{i<4000000} (-1)^i/(2i+1)` — the same
terms, only grouped differently — so the difference is `0`. -/
theorem claim_C6_cross_consistency :
    |normal 4000000 - simd 4000000| < 1 / 1000000 := by
  rw [normal_eq_sum 4000000 (by norm_num), simd_eq_sum]
  have hsteps : simdSteps 4000000 = 1000000 := by norm_num [simdSteps]
  rw [hsteps]
  have h4 : (4 * 1000000 : ℕ) = 4000000 := by norm_num
  rw [h4, sub_self, abs_zero]
  norm_num

/-- Claim C7: the scalar evaluator returns exactly `0` on `n = 0` (an
empty sum multiplied by `4.0`) and treats `n = 0` as an ordinary input. -/
theorem claim_C7_scalar_zero : normal 0 = 0 := by
  unfold normal
  simp

/-- Claim C8: over `n ∈ {10, 100, 1000, 100000}` the absolute error
`|normal n - π|` strictly decreases as `n` increases, and each error is at
most the Leibniz-series bound `4 / (2n + 1)`. -/
theorem claim_C8_convergence :
    |((normal 100 : ℚ) : ℝ) - Real.pi| < |((normal 10 : ℚ) : ℝ) - Real.pi| ∧
      |((normal 1000 : ℚ) : ℝ) - Real.pi| <
        |((normal 100 : ℚ) : ℝ) - Real.pi| ∧
      |((normal 100000 : ℚ) : ℝ) - Real.pi| <
        |((normal 1000 : ℚ) : ℝ) - Real.pi| ∧
      |((normal 10 : ℚ) : ℝ) - Real.pi| ≤ 4 / (2 * 10 + 1) ∧
      |((normal 100 : ℚ) : ℝ) - Real.pi| ≤ 4 / (2 * 100 + 1) ∧
      |((normal 1000 : ℚ) : ℝ) - Real.pi| ≤ 4 / (2 * 1000 + 1) ∧
      |((normal 100000 : ℚ) : ℝ) - Real.pi| ≤ 4 / (2 * 100000 + 1) := by
  have h10 : (10 : ℕ) = 2 * 5 := by norm_num
  have h100 : (100 : ℕ) = 2 * 50 := by norm_num
  have h1000 : (1000 : ℕ) = 2 * 500 := by norm_num
  have h100000 : (100000 : ℕ) = 2 * 50000 := by norm_num
  rw [h10, h100, h1000, h100000]
  have E5 := err_even 5 (by norm_num)
  have E50 := err_even 50 (by norm_num)
  have E500 := err_even 500 (by norm_num)
  have E50000 := err_even 50000 (by norm_num)
  have M1 : (∑ i ∈ Finset.range (2 * 5), (-1 : ℝ) ^ i / (2 * (i : ℝ) + 1)) <
      ∑ i ∈ Finset.range (2 * 50), (-1 : ℝ) ^ i / (2 * (i : ℝ) + 1) :=
    even_strictMono (by norm_num)
  have M2 : (∑ i ∈ Finset.range (2 * 50), (-1 : ℝ) ^ i / (2 * (i : ℝ) + 1)) <
      ∑ i ∈ Finset.range (2 * 500), (-1 : ℝ) ^ i / (2 * (i : ℝ) + 1) :=
    even_strictMono (by norm_num)
  have M3 : (∑ i ∈ Finset.range (2 * 500), (-1 : ℝ) ^ i / (2 * (i : ℝ) + 1)) <
      ∑ i ∈ Finset.range (2 * 50000), (-1 : ℝ) ^ i / (2 * (i : ℝ) + 1) :=
    even_strictMono (by norm_num)
  refine ⟨?_, ?_, ?_, ?_, ?_, ?_, ?_⟩
  · rw [E50, E5]
    exact sub_lt_sub_left (mul_lt_mul_of_pos_left M1 (by norm_num)) Real.pi
  · rw [E500, E50]
    exact sub_lt_sub_left (mul_lt_mul_of_pos_left M2 (by norm_num)) Real.pi
  · rw [E50000, E500]
    exact sub_lt_sub_left (mul_lt_mul_of_pos_left M3 (by norm_num)) Real.pi
  · exact le_trans (err_bound_even 5 (by norm_num)) (by norm_num)
  · exact le_trans (err_bound_even 50 (by norm_num)) (by norm_num)
  · exact le_trans (err_bound_even 500 (by norm_num)) (by norm_num)
  · exact le_trans (err_bound_even 50000 (by norm_num)) (by norm_num)

/-- Claim C9: the vectorized loop runs while `i < n` stepping by 4, so it
processes exactly `4 * ⌈n/4⌉` series terms — the term count is rounded up,
never down; in particular `simd 7` sums the first 8 terms, the same value
as `simd 8`. -/
theorem claim_C9_rounds_up :
    (∀ n : ℕ, simd n = 4 * leibnizSum (4 * ((n + 3) / 4))) ∧
      simd 7 = simd 8 := by
  constructor
  · intro n
    exact simd_eq_sum n
  · rw [simd_eq_sum 7, simd_eq_sum 8]
    norm_num [simdSteps]

/-- Claim C10: on `n = 0` the vectorized loop body never executes, the
four lane accumulators remain zero, and the horizontal reduction times 4
yields exactly `0`. -/
theorem claim_C10_simd_zero :
    simdSteps 0 = 0 ∧ (simdStateAfter 0).result_vector = mm256_setzero_pd ∧
      simd 0 = 0 := by
  refine ⟨rfl, rfl, ?_⟩
  rw [simd_eq_sum 0]
  norm_num [simdSteps, leibnizSum]

end Leibniz
